import Mathlib

/-!
Verification of the SIR particle-filter estimation core.

Shallow embedding of the Python sources:
- `particle_filter_base.py`   : weight normalization, state validation (cyclic
  wrap), weighted-mean state, joint-Gaussian propagation, likelihood model;
- `resampling_algos.py`       : `naive_search`, cumulative sums, multinomial
  and stratified resampling;
- `particle_filter_sir.py`    : the SIR update cycle and AlwaysResample trigger;
- `particle_filter_nepr.py`   : effective-particle-count trigger;
- `particle_filter_max_weight_resampling.py` : max-weight-reciprocal trigger.

Modelling conventions:
- A particle is a pair `(weight, state)`; particle lists keep source order.
- Float arithmetic is embedded as exact arithmetic in a linear ordered field
  (instantiated at `ℚ` for executable witnesses, at `ℝ` where the code uses
  transcendental functions: `sqrt`, `exp`, `arctan2`, `π`).
- A Python runtime error (ZeroDivisionError, IndexError from walking past the
  end of a list) is modelled by an `Option` result being `none`.
- Randomness (`np.random`) is modelled by passing the drawn values explicitly:
  a uniform draw sequence `u : ℕ → α` for resampling, a standard-normal
  3-vector per particle for the joint-Gaussian propagation.
-/

set_option autoImplicit false

namespace SIRFilter

variable {α : Type*} [LinearOrderedField α] {σ : Type*}

/-- From `particle_filter_base.py`, `ParticleFilter.normalize_weights`:
sum all weights; if the sum is below `1e-7` reinitialize every weight to
`1/len`, keeping states; otherwise divide each weight by the sum.
(On the empty list the claims never apply; Python would raise on `1.0/0`.) -/
def normalize_weights (weighted_samples : List (α × σ)) : List (α × σ) :=
  let sum_weights : α := (weighted_samples.map Prod.fst).sum
  if sum_weights < 1 / 10000000 then
    weighted_samples.map (fun ws => (1 / (weighted_samples.length : α), ws.2))
  else
    weighted_samples.map (fun ws => (ws.1 / sum_weights, ws.2))

/-- From `resampling_algos.py`, `naive_search`, with the running index made
explicit: `m = start`; while `cumulative_list[m] < x` increment `m`; return
`m`.  Walking past the end of the list (Python IndexError) is `none`. -/
def naive_search_from (x : α) : List α → ℕ → Option ℕ
  | [], _ => none
  | c :: rest, m => if c < x then naive_search_from x rest (m + 1) else some m

/-- `naive_search(cumulative_list, x)` starts its scan at index 0. -/
def naive_search (cumulative_list : List α) (x : α) : Option ℕ :=
  naive_search_from x cumulative_list 0

/-- `np.cumsum` with explicit accumulator: running partial sums. -/
def cumsum_from (acc : α) : List α → List α
  | [] => []
  | w :: ws => (acc + w) :: cumsum_from (acc + w) ws

/-- `np.cumsum(weights).tolist()`: the list of partial sums of `l`. -/
def cumsum (l : List α) : List α := cumsum_from 0 l

/-- One draw of the resampling loops shared by `multinomial` and `stratified`:
find `m = naive_search(Q, u)`, then emit `[1.0/N, copy(samples[m][1])]`.
`none` models the IndexError when the scan or the access leaves the list. -/
def resample_draw (samples : List (α × σ)) (Q : List α) (N : ℕ) (u : α) :
    Option (α × σ) :=
  match naive_search Q u with
  | none => none
  | some m =>
    match samples[m]? with
    | none => none
    | some p => some (1 / (N : α), p.2)

/-- The common resampling loop: `k` iterations remain, the current loop index
is `i`, and iteration `j` uses the value `u j`. -/
def resample_loop (samples : List (α × σ)) (Q : List α) (N : ℕ) (u : ℕ → α) :
    ℕ → ℕ → Option (List (α × σ))
  | _, 0 => some []
  | i, k + 1 =>
    match resample_draw samples Q N (u i) with
    | none => none
    | some p =>
      match resample_loop samples Q N u (i + 1) k with
      | none => none
      | some rest => some (p :: rest)

/-- From `resampling_algos.py`, `multinomial`: cumulative weights `Q`, then `N`
draws; draw `i` uses the uniform sample `u i` (drawn from `[1e-10, 1)`). -/
def multinomial (samples : List (α × σ)) (N : ℕ) (u : ℕ → α) :
    Option (List (α × σ)) :=
  resample_loop samples (cumsum (samples.map Prod.fst)) N u 0 N

/-- From `resampling_algos.py`, `stratified`: stratum `n` uses
`u = u0 n + float(n) * 1 / N`, with `u0 n` drawn from `[1e-10, 1/N)`. -/
def stratified (samples : List (α × σ)) (N : ℕ) (u0 : ℕ → α) :
    Option (List (α × σ)) :=
  resample_loop samples (cumsum (samples.map Prod.fst)) N
    (fun n => u0 n + (n : α) * 1 / (N : α)) 0 N

/-- The two resampling methods selectable in `resample`. -/
inductive ResamplingAlgorithm : Type
  | MULTINOMIAL : ResamplingAlgorithm
  | STRATIFIED : ResamplingAlgorithm

/-- From `resampling_algos.py`, `resample`: dispatch on the algorithm name. -/
def resample (samples : List (α × σ)) (N : ℕ)
    (algorithm : ResamplingAlgorithm) (u : ℕ → α) : Option (List (α × σ)) :=
  match algorithm with
  | ResamplingAlgorithm.MULTINOMIAL => multinomial samples N u
  | ResamplingAlgorithm.STRATIFIED => stratified samples N u

/-- From `particle_filter_sir.py`, `ParticleFilterSIR.needs_resampling`:
the SIR filter resamples every time step. -/
def needs_resampling_SIR (_particles : List (α × σ)) : Bool := true

/-- From `particle_filter_nepr.py`, `ParticleFilterNEPR.needs_resampling`:
true iff `1 / Σ w_i²` is below the threshold.  `none` models the
ZeroDivisionError of `1.0 / 0` when every weight is zero. -/
def needs_resampling_NEPR (particles : List (α × σ)) (threshold : α) :
    Option Bool :=
  let sum_weights_squared : α := (particles.map (fun p => p.1 ^ 2)).sum
  if sum_weights_squared = 0 then none
  else some (decide (1 / sum_weights_squared < threshold))

/-- From `particle_filter_max_weight_resampling.py`,
`ParticleFilterMWR.needs_resampling`: `max_weight` is folded with `max`
starting from 0; true iff `1 / max_weight` is below the threshold.  `none`
models the ZeroDivisionError of `1.0 / 0` when `max_weight` is 0: the source
has no guard for that case. -/
def needs_resampling_MWR (particles : List (α × σ)) (threshold : α) :
    Option Bool :=
  let max_weight : α := particles.foldl (fun acc p => max acc p.1) 0
  if max_weight = 0 then none
  else some (decide (1 / max_weight < threshold))

/-- From `particle_filter_base.py`, `ParticleFilter.get_average_state`:
componentwise weighted sum of the particle states `(x, y, heading)`. -/
def get_average_state (particles : List (α × (α × α × α))) : α × α × α :=
  ((particles.map (fun p => p.1 * p.2.1)).sum,
   (particles.map (fun p => p.1 * p.2.2.1)).sum,
   (particles.map (fun p => p.1 * p.2.2.2)).sum)

/-! Real-valued part of the model: the cyclic-world wrap, the joint-Gaussian
propagation, the likelihood model and the SIR update cycle. -/

/-- `np.mod a b`: for `b ≠ 0` this is `a - b * ⌊a / b⌋` (the remainder with
the sign of the divisor); `np.mod a 0 = 0`, matching numpy. -/
noncomputable def np_mod (a b : ℝ) : ℝ := b * Int.fract (a / b)

/-- World limits `[x_min, x_max, y_min, y_max]` held by `ParticleFilter`. -/
structure WorldLimits : Type where
  x_min : ℝ
  x_max : ℝ
  y_min : ℝ
  y_max : ℝ

/-- From `particle_filter_base.py`, `ParticleFilter.validate_state`:
`state[0] = np.mod(state[0], x_max)`, `state[1] = np.mod(state[1], y_max)`,
`state[2] = np.mod(state[2], 2*pi)`.  The minimum bounds are not consulted. -/
noncomputable def validate_state (L : WorldLimits) (state : ℝ × ℝ × ℝ) :
    ℝ × ℝ × ℝ :=
  (np_mod state.1 L.x_max, np_mod state.2.1 L.y_max,
   np_mod state.2.2 (2 * Real.pi))

/-- `np.arctan2 y x`: the quadrant-aware arctangent, with
`np.arctan2 0 0 = 0`. -/
noncomputable def np_arctan2 (y x : ℝ) : ℝ :=
  if 0 < x then Real.arctan (y / x)
  else if x < 0 then
    (if 0 ≤ y then Real.arctan (y / x) + Real.pi
     else Real.arctan (y / x) - Real.pi)
  else if 0 < y then Real.pi / 2
  else if y < 0 then -(Real.pi / 2)
  else 0

/-- One landmark factor of `ParticleFilter.compute_likelihood`: expected
distance `√(dx² + dy²)` and bearing `arctan2 dy dx` from the pose to the
landmark, then the product of the two unnormalized Gaussian densities of the
observed `(distance, bearing)` under the measurement-noise deviations. -/
noncomputable def likelihood_factor (measurement_noise : ℝ × ℝ)
    (sample : ℝ × ℝ × ℝ) (meas lm : ℝ × ℝ) : ℝ :=
  let dx : ℝ := sample.1 - lm.1
  let dy : ℝ := sample.2.1 - lm.2
  let expected_distance : ℝ := Real.sqrt (dx * dx + dy * dy)
  let expected_angle : ℝ := np_arctan2 dy dx
  Real.exp (-(meas.1 - expected_distance) ^ 2 /
      (2 * measurement_noise.1 ^ 2)) *
    Real.exp (-(meas.2 - expected_angle) ^ 2 /
      (2 * measurement_noise.2 ^ 2))

/-- From `particle_filter_base.py`, `ParticleFilter.compute_likelihood`:
start at 1.0 and multiply the factor of each landmark with its
index-aligned measurement (the source indexes `measurement[i]` while
enumerating `landmarks`; the zip realizes that alignment). -/
noncomputable def compute_likelihood (measurement_noise : ℝ × ℝ)
    (sample : ℝ × ℝ × ℝ) (measurement landmarks : List (ℝ × ℝ)) : ℝ :=
  (List.zip measurement landmarks).foldl
    (fun acc ml => acc * likelihood_factor measurement_noise sample ml.1 ml.2)
    1

/-- From `particle_filter_base.py`, `ParticleFilter.propagate_sample_Q`:
mean `(x + d·cos θ, y + d·sin θ, θ + r)`, diagonal covariance
`diag(Q₀², Q₁², Q₂²)`; the multivariate-normal draw is modelled as
mean plus `Qᵢ · gᵢ` with `g` the underlying standard-normal 3-vector.
The result is wrapped by `validate_state`. -/
noncomputable def propagate_sample_Q (L : WorldLimits) (sample : ℝ × ℝ × ℝ)
    (desired_distance desired_rotation : ℝ) (Q : ℝ × ℝ × ℝ)
    (g : ℝ × ℝ × ℝ) : ℝ × ℝ × ℝ :=
  validate_state L
    (sample.1 + desired_distance * Real.cos sample.2.2 + Q.1 * g.1,
     sample.2.1 + desired_distance * Real.sin sample.2.2 + Q.2.1 * g.2.1,
     sample.2.2 + desired_rotation + Q.2.2 * g.2.2)

/-- Construction-time configuration of `ParticleFilterSIR`. -/
structure FilterConfig : Type where
  n_particles : ℕ
  limits : WorldLimits
  process_noise : ℝ × ℝ
  measurement_noise : ℝ × ℝ
  resampling_algorithm : ResamplingAlgorithm

/-- From `particle_filter_sir.py`, `ParticleFilterSIR.update`: propagate every
particle with `propagate_sample_Q` and the hardcoded `Q = [0.07, 0.07, 0.1]`
(the configured `process_noise` is not consulted), multiply its weight by the
likelihood of the propagated state, normalize, and resample (the SIR trigger
always fires).  `g i` is the standard-normal 3-vector consumed by particle
`i`'s propagation; `u` is the uniform draw sequence consumed by resampling. -/
noncomputable def sir_update (cfg : FilterConfig)
    (particles : List (ℝ × (ℝ × ℝ × ℝ)))
    (robot_forward_motion robot_angular_motion : ℝ)
    (measurements landmarks : List (ℝ × ℝ))
    (g : ℕ → ℝ × ℝ × ℝ) (u : ℕ → ℝ) : Option (List (ℝ × (ℝ × ℝ × ℝ))) :=
  let new_particles : List (ℝ × (ℝ × ℝ × ℝ)) :=
    particles.enum.map (fun ip =>
      let propagated_state : ℝ × ℝ × ℝ :=
        propagate_sample_Q cfg.limits ip.2.2 robot_forward_motion
          robot_angular_motion (7 / 100, 7 / 100, 1 / 10) (g ip.1)
      (ip.2.1 *
          compute_likelihood cfg.measurement_noise propagated_state
            measurements landmarks,
        propagated_state))
  let normalized : List (ℝ × (ℝ × ℝ × ℝ)) := normalize_weights new_particles
  if needs_resampling_SIR normalized then
    resample normalized cfg.n_particles cfg.resampling_algorithm u
  else some normalized

/-! Helper lemmas about the embedded operations. -/

/-- Below the `1e-7` threshold, `normalize_weights` takes the
reinitialization branch. -/
lemma normalize_weights_low (ws : List (α × σ))
    (h : (ws.map Prod.fst).sum < 1 / 10000000) :
    normalize_weights ws = ws.map (fun p => (1 / (ws.length : α), p.2)) := by
  simp only [normalize_weights]
  rw [if_pos h]

/-- At or above the `1e-7` threshold, `normalize_weights` divides each weight
by the sum. -/
lemma normalize_weights_high (ws : List (α × σ))
    (h : ¬ (ws.map Prod.fst).sum < 1 / 10000000) :
    normalize_weights ws =
      ws.map (fun p => (p.1 / (ws.map Prod.fst).sum, p.2)) := by
  simp only [normalize_weights]
  rw [if_neg h]

/-- Summing the weights after dividing each by `s` divides the sum by `s`. -/
lemma sum_map_fst_div (ws : List (α × σ)) (s : α) :
    (ws.map (fun p => p.1 / s)).sum = (ws.map Prod.fst).sum / s := by
  induction ws with
  | nil => simp
  | cons p t ih => simp [ih, add_div]

/-- Summing a constant weight over a list multiplies it by the length. -/
lemma sum_map_fst_const (ws : List (α × σ)) (c : α) :
    (ws.map (fun _ => c)).sum = (ws.length : α) * c := by
  induction ws with
  | nil => simp
  | cons p t ih =>
    rw [List.map_cons, List.sum_cons, ih, List.length_cons]
    push_cast
    ring

/-- Projecting the weights out of a reweighted particle list. -/
lemma map_fst_map_pair {β τ : Type*} (ws : List (β × τ)) (f : β × τ → β) :
    (ws.map (fun p => (f p, p.2))).map Prod.fst = ws.map f := by
  rw [List.map_map]
  rfl

/-- Folding `max` over particles whose weights all equal `c`. -/
lemma foldl_max_const (c : α) :
    ∀ (ps : List (α × σ)) (a : α), (∀ p ∈ ps, p.1 = c) →
      ps.foldl (fun acc p => max acc p.1) a =
        if ps.isEmpty then a else max a c
  | [], a, _ => rfl
  | p :: rest, a, h => by
    have hp : p.1 = c := h p (List.mem_cons_self p rest)
    have hrest : ∀ q ∈ rest, q.1 = c := fun q hq =>
      h q (List.mem_cons_of_mem _ hq)
    rw [List.foldl_cons, foldl_max_const c rest (max a p.1) hrest, hp]
    cases rest with
    | nil => rfl
    | cons r t => simp [max_assoc]

end SIRFilter

namespace SIRFilter

variable {α : Type*} [LinearOrderedField α] {σ : Type*}

/-! The claim theorems over the executable rational instantiation. -/

/-- C2: for every non-empty list of (weight, state) pairs whose weight sum is
below `1e-7`, `normalize_weights` returns the same number of pairs, every
weight exactly `1/N` (`N` the number of pairs) and every state unchanged; the
recovery is a silent total computation, no exception path exists. -/
theorem normalize_weights_collapse_recovery {τ : Type} (ws : List (ℚ × τ))
    (_hne : ws ≠ []) (hsum : (ws.map Prod.fst).sum < 1 / 10000000) :
    normalize_weights ws = ws.map (fun p => (1 / (ws.length : ℚ), p.2)) :=
  normalize_weights_low ws hsum

/-- Witness for C2 at the singleton zero-weight particle. -/
theorem normalize_weights_collapse_recovery_witness :
    (([((0 : ℚ), (0 : ℚ))] : List (ℚ × ℚ)) ≠ [] ∧
      (([((0 : ℚ), (0 : ℚ))] : List (ℚ × ℚ)).map Prod.fst).sum
        < 1 / 10000000) ∧
    normalize_weights ([((0 : ℚ), (0 : ℚ))] : List (ℚ × ℚ)) =
      ([((0 : ℚ), (0 : ℚ))] : List (ℚ × ℚ)).map
        (fun p => (1 / ((([((0 : ℚ), (0 : ℚ))] : List (ℚ × ℚ)).length : ℚ)),
          p.2)) :=
  ⟨⟨by norm_num, by norm_num⟩,
    normalize_weights_collapse_recovery _ (by norm_num) (by norm_num)⟩

/-- C3: for every non-empty list of (weight, state) pairs with positive
weight sum, the normalized weights sum to 1 within `1e-9` (in the exact
arithmetic of the model they sum to 1 on the nose); when the sum is at least
`1e-7`, each output weight is the input weight divided by the sum, states
unchanged. -/
theorem normalize_weights_sum_one {τ : Type} (ws : List (ℚ × τ))
    (hne : ws ≠ []) (hpos : 0 < (ws.map Prod.fst).sum) :
    |((normalize_weights ws).map Prod.fst).sum - 1| ≤ 1 / 1000000000 ∧
    (1 / 10000000 ≤ (ws.map Prod.fst).sum →
      normalize_weights ws =
        ws.map (fun p => (p.1 / (ws.map Prod.fst).sum, p.2))) := by
  constructor
  · have hone : ((normalize_weights ws).map Prod.fst).sum = 1 := by
      by_cases h : (ws.map Prod.fst).sum < 1 / 10000000
      · rw [normalize_weights_low ws h, map_fst_map_pair, sum_map_fst_const]
        have hlen : (ws.length : ℚ) ≠ 0 :=
          Nat.cast_ne_zero.2 (fun h0 => hne (List.length_eq_zero.1 h0))
        field_simp
      · rw [normalize_weights_high ws h, map_fst_map_pair, sum_map_fst_div]
        exact div_self hpos.ne'
    rw [hone]
    norm_num
  · intro h
    exact normalize_weights_high ws (not_lt.2 h)

/-- Witness for C3 at a two-particle list with weight sum 1. -/
theorem normalize_weights_sum_one_witness :
    (([((1 : ℚ)/2, (0 : ℚ)), (1/2, 1)] : List (ℚ × ℚ)) ≠ [] ∧
      0 < (([((1 : ℚ)/2, (0 : ℚ)), (1/2, 1)] : List (ℚ × ℚ)).map
        Prod.fst).sum) ∧
    (|((normalize_weights
        ([((1 : ℚ)/2, (0 : ℚ)), (1/2, 1)] : List (ℚ × ℚ))).map
          Prod.fst).sum - 1| ≤ 1 / 1000000000 ∧
      (1 / 10000000 ≤
          (([((1 : ℚ)/2, (0 : ℚ)), (1/2, 1)] : List (ℚ × ℚ)).map
            Prod.fst).sum →
        normalize_weights ([((1 : ℚ)/2, (0 : ℚ)), (1/2, 1)] : List (ℚ × ℚ)) =
          ([((1 : ℚ)/2, (0 : ℚ)), (1/2, 1)] : List (ℚ × ℚ)).map
            (fun p => (p.1 /
              (([((1 : ℚ)/2, (0 : ℚ)), (1/2, 1)] : List (ℚ × ℚ)).map
                Prod.fst).sum, p.2)))) :=
  ⟨⟨by simp, by norm_num⟩,
    normalize_weights_sum_one _ (by simp) (by norm_num)⟩

/-- C1: the source of `ParticleFilterMWR.needs_resampling` has no guard for
`max_weight == 0`: on a particle set whose weights are all 0 it evaluates
`1.0 / 0` and raises ZeroDivisionError (modelled as `none`) instead of
returning true, contradicting the spec's explicit guard requirement. -/
theorem mwr_all_zero_weights_raises {τ : Type} (ps : List (ℚ × τ)) (t : ℚ)
    (hz : ∀ p ∈ ps, p.1 = 0) : needs_resampling_MWR ps t = none := by
  have h := foldl_max_const 0 ps 0 hz
  have hfold : ps.foldl (fun acc p => max acc p.1) 0 = 0 := by
    rw [h]
    cases ps <;> simp
  simp [needs_resampling_MWR, hfold]

/-- Witness for C1 at the singleton zero-weight particle and the default
threshold `1/0.005 = 200`. -/
theorem mwr_all_zero_weights_raises_witness :
    (∀ p ∈ ([((0 : ℚ), (0 : ℚ))] : List (ℚ × ℚ)), p.1 = 0) ∧
      needs_resampling_MWR ([((0 : ℚ), (0 : ℚ))] : List (ℚ × ℚ)) 200 =
        none :=
  ⟨by norm_num, mwr_all_zero_weights_raises _ 200 (by norm_num)⟩

/-- C10: the weighted mean of `N ≥ 1` particles that all carry weight `1/N`
and the identical state `s` is exactly `s`, componentwise. -/
theorem get_average_state_uniform_identical (s : ℚ × ℚ × ℚ) (N : ℕ)
    (hN : 1 ≤ N) :
    get_average_state (List.replicate N (1 / (N : ℚ), s)) = s := by
  have hN0 : (N : ℚ) ≠ 0 := Nat.cast_ne_zero.2 (by omega)
  obtain ⟨x, y, θ⟩ := s
  simp only [get_average_state, List.map_replicate, List.sum_replicate,
    nsmul_eq_mul, Prod.mk.injEq]
  refine ⟨?_, ?_, ?_⟩ <;> field_simp

/-- Witness for C10 at `N = 3`, `s = (1, 2, 3)`. -/
theorem get_average_state_uniform_identical_witness :
    1 ≤ 3 ∧
      get_average_state
        (List.replicate 3 (1 / ((3 : ℕ) : ℚ), ((1 : ℚ), (2 : ℚ), (3 : ℚ))))
        = ((1 : ℚ), (2 : ℚ), (3 : ℚ)) :=
  ⟨by decide, get_average_state_uniform_identical (1, 2, 3) 3 (by decide)⟩

/-- C7: the SIR trigger is constantly true; on `N ≥ 1` particles with uniform
weights `1/N`, the NEPR trigger returns true iff `N < threshold` and the MWR
trigger returns true iff `N < threshold` (both return without error). -/
theorem triggers_uniform_weights {τ : Type} (ps : List (ℚ × τ)) (N : ℕ)
    (t : ℚ) (hN : 1 ≤ N) (hlen : ps.length = N)
    (hw : ∀ p ∈ ps, p.1 = 1 / (N : ℚ)) :
    needs_resampling_SIR ps = true ∧
    needs_resampling_NEPR ps t = some (decide ((N : ℚ) < t)) ∧
    needs_resampling_MWR ps t = some (decide ((N : ℚ) < t)) := by
  have hN0 : (N : ℚ) ≠ 0 := Nat.cast_ne_zero.2 (by omega)
  have hNpos : (0 : ℚ) < N := by positivity
  have hinv : (0 : ℚ) < 1 / N := by positivity
  refine ⟨rfl, ?_, ?_⟩
  · have hsq : (ps.map (fun p => p.1 ^ 2)).sum = 1 / (N : ℚ) := by
      have hall : ∀ x ∈ ps.map (fun p => p.1 ^ 2), x = (1 / (N : ℚ)) ^ 2 := by
        intro x hx
        obtain ⟨p, hp, rfl⟩ := List.mem_map.1 hx
        rw [hw p hp]
      rw [List.sum_eq_card_nsmul _ _ hall, List.length_map, hlen,
        nsmul_eq_mul]
      field_simp
      ring
    simp only [needs_resampling_NEPR, hsq]
    rw [if_neg hinv.ne', one_div_one_div]
  · have hne : ps ≠ [] := by
      intro h
      rw [h] at hlen
      simp at hlen
      omega
    have hfold : ps.foldl (fun acc p => max acc p.1) 0 = 1 / (N : ℚ) := by
      rw [foldl_max_const (1 / (N : ℚ)) ps 0 hw]
      cases ps with
      | nil => exact absurd rfl hne
      | cons p rest => simp [max_eq_right hinv.le]
    simp only [needs_resampling_MWR, hfold]
    rw [if_neg hinv.ne', one_div_one_div]

/-- Witness for C7 at two particles of weight `1/2` and threshold 5. -/
theorem triggers_uniform_weights_witness :
    (1 ≤ 2 ∧ ([((1 : ℚ)/2, (0 : ℚ)), (1/2, 1)] : List (ℚ × ℚ)).length = 2 ∧
      (∀ p ∈ ([((1 : ℚ)/2, (0 : ℚ)), (1/2, 1)] : List (ℚ × ℚ)),
        p.1 = 1 / ((2 : ℕ) : ℚ))) ∧
    (needs_resampling_SIR ([((1 : ℚ)/2, (0 : ℚ)), (1/2, 1)] : List (ℚ × ℚ))
        = true ∧
      needs_resampling_NEPR
          ([((1 : ℚ)/2, (0 : ℚ)), (1/2, 1)] : List (ℚ × ℚ)) 5
        = some (decide (((2 : ℕ) : ℚ) < 5)) ∧
      needs_resampling_MWR
          ([((1 : ℚ)/2, (0 : ℚ)), (1/2, 1)] : List (ℚ × ℚ)) 5
        = some (decide (((2 : ℕ) : ℚ) < 5))) :=
  ⟨⟨by decide, by decide, by norm_num⟩,
    triggers_uniform_weights _ 2 5 (by decide) (by decide) (by norm_num)⟩

/-! Claims about the real-valued operations. -/

/-- For a positive modulus, `np.mod` is nonnegative. -/
lemma np_mod_nonneg (a : ℝ) {b : ℝ} (hb : 0 < b) : 0 ≤ np_mod a b :=
  mul_nonneg hb.le (Int.fract_nonneg _)

/-- For a positive modulus, `np.mod` stays strictly below the modulus. -/
lemma np_mod_lt (a : ℝ) {b : ℝ} (hb : 0 < b) : np_mod a b < b := by
  have h : b * Int.fract (a / b) < b * 1 :=
    mul_lt_mul_of_pos_left (Int.fract_lt_one (a / b)) hb
  simpa [np_mod] using h

/-- C6: for every input state and world limits with `x_max > 0` and
`y_max > 0`, `validate_state` returns `x ∈ [0, x_max)`, `y ∈ [0, y_max)` and
`heading ∈ [0, 2π)`; the wrap is taken against the max bounds only, so the
result does not depend on `x_min` or `y_min`. -/
theorem validate_state_bounds (L : WorldLimits) (s : ℝ × ℝ × ℝ)
    (hx : 0 < L.x_max) (hy : 0 < L.y_max) :
    (0 ≤ (validate_state L s).1 ∧ (validate_state L s).1 < L.x_max) ∧
    (0 ≤ (validate_state L s).2.1 ∧ (validate_state L s).2.1 < L.y_max) ∧
    (0 ≤ (validate_state L s).2.2 ∧
      (validate_state L s).2.2 < 2 * Real.pi) ∧
    (∀ a b : ℝ,
      validate_state ⟨a, L.x_max, b, L.y_max⟩ s = validate_state L s) :=
  ⟨⟨np_mod_nonneg _ hx, np_mod_lt _ hx⟩,
   ⟨np_mod_nonneg _ hy, np_mod_lt _ hy⟩,
   ⟨np_mod_nonneg _ Real.two_pi_pos, np_mod_lt _ Real.two_pi_pos⟩,
   fun _ _ => rfl⟩

/-- Witness for C6 at the unit world and the state `(1/2, 1/2, 1/2)`. -/
theorem validate_state_bounds_witness :
    ((0 : ℝ) < 1 ∧ (0 : ℝ) < 1) ∧
    ((0 ≤ (validate_state ⟨0, 1, 0, 1⟩ (1/2, 1/2, 1/2)).1 ∧
        (validate_state ⟨0, 1, 0, 1⟩ (1/2, 1/2, 1/2)).1 < (1 : ℝ)) ∧
      (0 ≤ (validate_state ⟨0, 1, 0, 1⟩ (1/2, 1/2, 1/2)).2.1 ∧
        (validate_state ⟨0, 1, 0, 1⟩ (1/2, 1/2, 1/2)).2.1 < (1 : ℝ)) ∧
      (0 ≤ (validate_state ⟨0, 1, 0, 1⟩ (1/2, 1/2, 1/2)).2.2 ∧
        (validate_state ⟨0, 1, 0, 1⟩ (1/2, 1/2, 1/2)).2.2 < 2 * Real.pi) ∧
      (∀ a b : ℝ,
        validate_state ⟨a, 1, b, 1⟩ (1/2, 1/2, 1/2) =
          validate_state ⟨0, 1, 0, 1⟩ (1/2, 1/2, 1/2))) :=
  ⟨⟨zero_lt_one, zero_lt_one⟩,
    validate_state_bounds ⟨0, 1, 0, 1⟩ (1/2, 1/2, 1/2) zero_lt_one
      zero_lt_one⟩

/-- C8: a particle exactly at its single landmark expects distance 0 and
bearing 0, so with observed measurement `(0, 0)` and noise deviations
`(0.2, 0.05)` the likelihood is exactly 1 (the peak of both Gaussian
channels); with zero landmarks the likelihood is 1 for every pose,
measurement list and noise configuration. -/
theorem compute_likelihood_peak :
    (∀ x y θ : ℝ,
      compute_likelihood (2/10, 5/100) (x, y, θ) [(0, 0)] [(x, y)] = 1) ∧
    (∀ (mn : ℝ × ℝ) (s : ℝ × ℝ × ℝ) (m : List (ℝ × ℝ)),
      compute_likelihood mn s m [] = 1) := by
  constructor
  · intro x y θ
    simp [compute_likelihood, likelihood_factor, np_arctan2]
  · intro mn s m
    simp [compute_likelihood]

/-- C5: the production update cycle propagates with the hardcoded
`Q = (0.07, 0.07, 0.1)` and never reads the configured process noise: two
SIR filters that differ only in their `process_noise` configuration, holding
equal particle sets and fed the same inputs and the same random draws,
produce equal particle sets. -/
theorem sir_update_ignores_process_noise (cfg : FilterConfig)
    (pn₁ pn₂ : ℝ × ℝ) (particles : List (ℝ × (ℝ × ℝ × ℝ)))
    (robot_forward_motion robot_angular_motion : ℝ)
    (measurements landmarks : List (ℝ × ℝ))
    (g : ℕ → ℝ × ℝ × ℝ) (u : ℕ → ℝ) :
    sir_update { cfg with process_noise := pn₁ } particles
        robot_forward_motion robot_angular_motion measurements landmarks g u
      =
      sir_update { cfg with process_noise := pn₂ } particles
        robot_forward_motion robot_angular_motion measurements landmarks g
        u :=
  rfl

/-! Correctness of `naive_search` and the resampling loop. -/

/-- When every element is strictly below `x`, the scan of `naive_search`
walks past the end of the list (the IndexError case, `none`). -/
lemma naive_search_from_all_lt (x : α) :
    ∀ (l : List α) (m : ℕ), (∀ c ∈ l, c < x) →
      naive_search_from x l m = none
  | [], _, _ => rfl
  | c :: rest, m, h => by
    have hc : c < x := h c (List.mem_cons_self c rest)
    rw [naive_search_from, if_pos hc]
    exact naive_search_from_all_lt x rest (m + 1)
      (fun d hd => h d (List.mem_cons_of_mem _ hd))

/-- When some element is at least `x`, the scan stops at the first such
element: it returns the start index plus the smallest offset `j` with
`l[j] ≥ x`, and every earlier element is strictly below `x`. -/
lemma naive_search_from_found (x : α) :
    ∀ (l : List α) (m : ℕ), (∃ c ∈ l, x ≤ c) →
      ∃ j, naive_search_from x l m = some (m + j) ∧ j < l.length ∧
        (∀ c, l[j]? = some c → x ≤ c) ∧
        (∀ i, i < j → ∀ c, l[i]? = some c → c < x)
  | [], _, hex => absurd hex (by simp)
  | c :: rest, m, hex => by
    by_cases hc : c < x
    · have hex' : ∃ d ∈ rest, x ≤ d := by
        obtain ⟨d, hd, hxd⟩ := hex
        rcases List.mem_cons.1 hd with rfl | hd'
        · exact absurd hxd (not_le.2 hc)
        · exact ⟨d, hd', hxd⟩
      obtain ⟨j, hj, hjlen, hval, hprev⟩ :=
        naive_search_from_found x rest (m + 1) hex'
      refine ⟨j + 1, ?_, ?_, ?_, ?_⟩
      · rw [naive_search_from, if_pos hc, hj]
        congr 1
        omega
      · simpa [List.length_cons] using Nat.succ_lt_succ hjlen
      · intro d hd
        rw [List.getElem?_cons_succ] at hd
        exact hval d hd
      · intro i hi d hd
        cases i with
        | zero =>
          rw [List.getElem?_cons_zero] at hd
          cases hd
          exact hc
        | succ i =>
          rw [List.getElem?_cons_succ] at hd
          exact hprev i (Nat.lt_of_succ_lt_succ hi) d hd
    · refine ⟨0, ?_, by simp, ?_, ?_⟩
      · rw [naive_search_from, if_neg hc, Nat.add_zero]
      · intro d hd
        rw [List.getElem?_cons_zero] at hd
        cases hd
        exact not_lt.1 hc
      · intro i hi
        exact absurd hi (Nat.not_lt_zero i)

/-- The cumulative-sum list has the same length as its input. -/
lemma cumsum_from_length : ∀ (l : List α) (acc : α),
    (cumsum_from acc l).length = l.length
  | [], _ => rfl
  | w :: ws, acc => by
    rw [cumsum_from, List.length_cons, List.length_cons,
      cumsum_from_length ws (acc + w)]

/-- The total `acc + sum l` appears in the cumulative-sum list (it is its
last entry). -/
lemma cumsum_from_mem_sum : ∀ (l : List α) (acc : α), l ≠ [] →
    acc + l.sum ∈ cumsum_from acc l
  | [], _, h => absurd rfl h
  | w :: ws, acc, _ => by
    rw [cumsum_from, List.sum_cons]
    by_cases hws : ws = []
    · subst hws
      simp
    · have hmem := cumsum_from_mem_sum ws (acc + w) hws
      have heq : acc + (w + ws.sum) = acc + w + ws.sum := by ring
      rw [heq]
      exact List.mem_cons_of_mem _ hmem

/-- When the weights sum to 1 and the drawn value is at most 1, one draw of
the resampling loop succeeds and yields weight `1/N` and the state of some
input particle. -/
lemma resample_draw_some (samples : List (α × σ)) (N : ℕ) (uv : α)
    (hsum : (samples.map Prod.fst).sum = 1) (hu : uv ≤ 1) :
    ∃ p, resample_draw samples (cumsum (samples.map Prod.fst)) N uv
        = some p ∧
      p.1 = 1 / (N : α) ∧ p.2 ∈ samples.map Prod.snd := by
  have hne : samples ≠ [] := by
    intro h
    rw [h] at hsum
    simp at hsum
  have hmapne : samples.map Prod.fst ≠ [] := by
    simpa using hne
  have hmem : (1 : α) ∈ cumsum (samples.map Prod.fst) := by
    have h := cumsum_from_mem_sum (samples.map Prod.fst) 0 hmapne
    rwa [zero_add, hsum] at h
  obtain ⟨j, hj, hjlen, -, -⟩ :=
    naive_search_from_found uv (cumsum (samples.map Prod.fst)) 0
      ⟨1, hmem, hu⟩
  rw [Nat.zero_add] at hj
  have hjlen' : j < samples.length := by
    rwa [cumsum, cumsum_from_length, List.length_map] at hjlen
  have hget : samples[j]? = some samples[j] := List.getElem?_eq_getElem hjlen'
  refine ⟨(1 / (N : α), samples[j].2), ?_, rfl, ?_⟩
  · simp only [resample_draw, naive_search, hj, hget]
  · exact List.mem_map.2 ⟨samples[j], List.getElem_mem hjlen', rfl⟩

/-- The resampling loop: if every drawn value in the remaining iterations is
at most 1 and the weights sum to 1, the loop succeeds and returns `k`
particles, each with weight `1/N` and a state copied from the input. -/
lemma resample_loop_spec (samples : List (α × σ)) (N : ℕ) (u : ℕ → α)
    (hsum : (samples.map Prod.fst).sum = 1) :
    ∀ (k i : ℕ), (∀ j, i ≤ j → j < i + k → u j ≤ 1) →
      ∃ out,
        resample_loop samples (cumsum (samples.map Prod.fst)) N u i k
            = some out ∧
          out.length = k ∧
          ∀ p ∈ out, p.1 = 1 / (N : α) ∧ p.2 ∈ samples.map Prod.snd := by
  intro k
  induction k with
  | zero => exact fun i _ => ⟨[], rfl, rfl, by simp⟩
  | succ k ih =>
    intro i hu
    obtain ⟨p, hp, hp1, hp2⟩ :=
      resample_draw_some samples N (u i) hsum (hu i le_rfl (by omega))
    obtain ⟨out, ho, holen, hout⟩ :=
      ih (i + 1) (fun j hj1 hj2 => hu j (by omega) (by omega))
    refine ⟨p :: out, ?_, by simp [holen], ?_⟩
    · rw [resample_loop, hp, ho]
    · intro q hq
      rcases List.mem_cons.1 hq with rfl | hq'
      · exact ⟨hp1, hp2⟩
      · exact hout q hq'

end SIRFilter

namespace SIRFilter

/-- C9: `naive_search` returns the smallest index `m` with
`cumulative_list[m] ≥ x` whenever some element is at least `x`; when `x`
exceeds every element (in particular on the empty list) the scan walks past
the end and raises an IndexError (modelled as `none`), so the in-bounds
accesses of the resampling algorithms rely on the final cumulative weight
being at least the drawn value. -/
theorem naive_search_smallest_index (l : List ℚ) (x : ℚ) :
    ((∃ c ∈ l, x ≤ c) →
      ∃ m, naive_search l x = some m ∧ m < l.length ∧
        (∀ c, l[m]? = some c → x ≤ c) ∧
        (∀ i, i < m → ∀ c, l[i]? = some c → c < x)) ∧
    ((∀ c ∈ l, c < x) → naive_search l x = none) := by
  constructor
  · intro hex
    obtain ⟨j, hj, hjlen, hval, hprev⟩ := naive_search_from_found x l 0 hex
    exact ⟨j, by rwa [Nat.zero_add] at hj, hjlen, hval, hprev⟩
  · intro h
    exact naive_search_from_all_lt x l 0 h

/-- Witness for C9 at the cumulative list `[1/10, 2/10, 1]` and `x = 1/2`:
the smallest index with `Q[m] ≥ 1/2` is 2. -/
theorem naive_search_smallest_index_witness :
    (∃ c ∈ ([1/10, 2/10, 1] : List ℚ), (1 : ℚ)/2 ≤ c) ∧
    (∃ m, naive_search ([1/10, 2/10, 1] : List ℚ) ((1 : ℚ)/2) = some m ∧
      m < ([1/10, 2/10, 1] : List ℚ).length ∧
      (∀ c, ([1/10, 2/10, 1] : List ℚ)[m]? = some c → (1 : ℚ)/2 ≤ c) ∧
      (∀ i, i < m → ∀ c,
        ([1/10, 2/10, 1] : List ℚ)[i]? = some c → c < (1 : ℚ)/2)) :=
  ⟨by norm_num,
    (naive_search_smallest_index ([1/10, 2/10, 1] : List ℚ) (1/2)).1
      (by norm_num)⟩

/-- C4: for every target count `N ≥ 1` and every particle set whose weights
sum to 1, with the uniform draws of each algorithm taken from their actual
ranges (`u i ∈ [1e-10, 1)` for multinomial, stratum draws
`u0 n ∈ [1e-10, 1/N)` for stratified), both resampling algorithms succeed and
return exactly `N` particles, each of weight exactly `1/N` and each carrying
the state of some input particle. -/
theorem resampling_contract {τ : Type} (samples : List (ℚ × τ)) (N : ℕ)
    (u u0 : ℕ → ℚ) (hN : 1 ≤ N)
    (hsum : (samples.map Prod.fst).sum = 1)
    (hu : ∀ i, i < N → 1 / 10 ^ 10 ≤ u i ∧ u i < 1)
    (hu0 : ∀ i, i < N → 1 / 10 ^ 10 ≤ u0 i ∧ u0 i < 1 / (N : ℚ)) :
    (∃ out, multinomial samples N u = some out ∧ out.length = N ∧
      ∀ p ∈ out, p.1 = 1 / (N : ℚ) ∧ p.2 ∈ samples.map Prod.snd) ∧
    (∃ out, stratified samples N u0 = some out ∧ out.length = N ∧
      ∀ p ∈ out, p.1 = 1 / (N : ℚ) ∧ p.2 ∈ samples.map Prod.snd) := by
  have hNpos : (0 : ℚ) < N := by
    have : (1 : ℚ) ≤ N := by exact_mod_cast hN
    linarith
  constructor
  · exact resample_loop_spec samples N u hsum N 0
      (fun j _ hj => (hu j (by omega)).2.le)
  · refine resample_loop_spec samples N
      (fun n => u0 n + (n : ℚ) * 1 / (N : ℚ)) hsum N 0 ?_
    intro j _ hj
    have hj' : j < N := by omega
    have hjc : (j : ℚ) + 1 ≤ N := by exact_mod_cast hj'
    have h0 := (hu0 j hj').2
    have hstep : u0 j + (j : ℚ) * 1 / N < 1 / N + (j : ℚ) * 1 / N := by
      linarith
    have hrest : 1 / (N : ℚ) + (j : ℚ) * 1 / N = ((j : ℚ) + 1) / N := by
      ring
    have hle : ((j : ℚ) + 1) / N ≤ 1 := by
      rw [div_le_one hNpos]
      exact hjc
    show u0 j + (j : ℚ) * 1 / N ≤ 1
    have hlt : u0 j + (j : ℚ) * 1 / N < 1 :=
      lt_of_lt_of_le (hrest ▸ hstep) hle
    exact hlt.le

/-- Witness for C4 at the single unit-weight particle, `N = 1`, and the
constant draws `1/2`. -/
theorem resampling_contract_witness :
    (1 ≤ 1 ∧ (([((1 : ℚ), (0 : ℚ))] : List (ℚ × ℚ)).map Prod.fst).sum = 1 ∧
      (∀ i, i < 1 →
        (1 : ℚ) / 10 ^ 10 ≤ (fun _ => (1 : ℚ)/2) i ∧
          (fun _ => (1 : ℚ)/2) i < 1) ∧
      (∀ i, i < 1 →
        (1 : ℚ) / 10 ^ 10 ≤ (fun _ => (1 : ℚ)/2) i ∧
          (fun _ => (1 : ℚ)/2) i < 1 / ((1 : ℕ) : ℚ))) ∧
    ((∃ out, multinomial ([((1 : ℚ), (0 : ℚ))] : List (ℚ × ℚ)) 1
          (fun _ => (1 : ℚ)/2) = some out ∧
        out.length = 1 ∧
        ∀ p ∈ out, p.1 = 1 / ((1 : ℕ) : ℚ) ∧
          p.2 ∈ ([((1 : ℚ), (0 : ℚ))] : List (ℚ × ℚ)).map Prod.snd) ∧
      (∃ out, stratified ([((1 : ℚ), (0 : ℚ))] : List (ℚ × ℚ)) 1
          (fun _ => (1 : ℚ)/2) = some out ∧
        out.length = 1 ∧
        ∀ p ∈ out, p.1 = 1 / ((1 : ℕ) : ℚ) ∧
          p.2 ∈ ([((1 : ℚ), (0 : ℚ))] : List (ℚ × ℚ)).map Prod.snd)) :=
  ⟨⟨le_rfl, by norm_num, fun i _ => by norm_num, fun i _ => by norm_num⟩,
    resampling_contract _ 1 _ _ le_rfl (by norm_num)
      (fun i _ => by norm_num) (fun i _ => by norm_num)⟩

end SIRFilter
